import Mathlib

/-
  Shallow embedding of the drand verifying client (src/client/verify.go,
  src/client/random.go, src/client/interface.go).

  External collaborators (network fetch, BLS verification, randomness
  derivation) are modelled as an environment of oracles; the client state
  is the single-slot point-of-trust cache.  Every operation returns its
  result together with the updated state and a trace of the externally
  observable events it performed (metadata fetches, round fetches,
  verification-primitive invocations, walk invocations, stream
  subscription).
-/

namespace Drand

/-- Byte strings are modelled as lists of naturals. -/
abbrev Bytes := List Nat

/-- chain.Info: the verification public key and the genesis group hash.
(Chain-timing parameters are not used by verification and are omitted.) -/
structure ChainInfo where
  PublicKey : Bytes
  GroupHash : Bytes
  deriving DecidableEq, Repr

/-- chain.Beacon: the ephemeral verification record.  Unset fields default
to the empty byte string, as Go zero values do. -/
structure Beacon where
  PreviousSig : Bytes := []
  Round : Nat := 0
  Signature : Bytes := []
  SignatureV2 : Bytes := []
  deriving DecidableEq, Repr

/-- client.RandomData (random.go): the canonical owned representation.
`version` is the private scheme tag (0 by default, 2 when the adapter
selected the v2 slot).  `PreviousSignature = none` models a nil slice. -/
structure RandomData where
  Rnd : Nat
  Random : Bytes
  Sig : Bytes := []
  PreviousSignature : Option Bytes := none
  SigV2 : Bytes := []
  version : Nat := 0
  deriving DecidableEq, Repr

/-- RandomData.Signature (random.go): the v2 slot when the scheme tag is 2,
the v1 slot otherwise. -/
def RandomData.Signature (r : RandomData) : Bytes :=
  if r.version = 2 then r.SigV2 else r.Sig

/-- A non-canonical round result: round number, randomness, signature and
the optional previous-signature capability (`none` models a result that
does not implement resultWithPreviousSignature, or returns nil). -/
structure GenericResult where
  Rnd : Nat
  Random : Bytes
  Sig : Bytes
  PrevSig : Option Bytes := none
  deriving DecidableEq, Repr

/-- client.Result: a polymorphic round result, either already canonical
(*RandomData) or some other implementation. -/
inductive Result where
  | rd : RandomData → Result
  | generic : GenericResult → Result
  deriving DecidableEq, Repr

/-- Result.Round(). -/
def Result.Round : Result → Nat
  | .rd r => r.Rnd
  | .generic g => g.Rnd

/-- Result.Randomness(). -/
def Result.Randomness : Result → Bytes
  | .rd r => r.Random
  | .generic g => g.Random

/-- Result.Signature(). -/
def Result.Signature : Result → Bytes
  | .rd r => r.Signature
  | .generic g => g.Sig

/-- Error taxonomy of the verification layer (spec section 7): fetch
errors, verification-primitive failures per scheme, and the
internal-consistency error of the chain walk. -/
inductive Err where
  | infoErr
  | fetchErr (round : Nat)
  | verifyV1Err (b : Beacon)
  | verifyV2Err (b : Beacon)
  | unexpectedTrustRound (tr : Nat)
  deriving DecidableEq, Repr

/-- Externally observable events of one client operation. -/
inductive Ev where
  | fetchInfo
  | fetchRound (r : Nat)
  | verifyV1Call (b : Beacon)
  | verifyV2Call (b : Beacon)
  | walkCall (round : Nat)
  | subscribe
  deriving DecidableEq, Repr

abbrev Trace := List Ev

/-- The environment of external collaborators: the fetch client
(Info/Get, deterministic per execution) and the crypto primitives
(chain.VerifyBeacon, chain.VerifyBeaconV2 as boolean acceptance, and
chain.RandomnessFromSignature). -/
structure Env where
  infoRes : Except Unit ChainInfo
  getRes : Nat → Except Unit Result
  verifyV1 : Bytes → Beacon → Bool
  verifyV2 : Bytes → Beacon → Bool
  randomnessFrom : Bytes → Bytes

/-- kyber Point.Clone(): a defensive copy, equal as a value. -/
def cloneKey (k : Bytes) : Bytes := k

/-- Immutable configuration of a verifying client. -/
structure Config where
  strict : Bool
  v2from : Nat
  deriving DecidableEq, Repr

/-- Mutable state of a verifying client: the point-of-trust cache. -/
structure VState where
  pointOfTrust : Option Result
  deriving DecidableEq, Repr

/-- newVerifyingClient: wraps a client; the cache starts at the supplied
previousResult (nil modelled as none). -/
def newVerifyingClient (previousResult : Option Result) (strict : Bool) (v2from : Nat) :
    Config × VState :=
  ({ strict := strict, v2from := v2from }, { pointOfTrust := previousResult })

/-- Go uint64 subtraction of 1: `round - 1` with wrap-around at zero.
Faithful for any round below 2^64. -/
def wm1 (r : Nat) : Nat := (r + (2 ^ 64 - 1)) % 2 ^ 64

/-- The walk loop of getTrustedPreviousSignature: while the trust round is
below the target, fetch the next round, build the beacon link from the
current anchor signature and verify it with the v1 primitive.  `fuel` is
the number of remaining iterations (target minus current trust round).
Returns the final trust round, anchor signature and last fetched result,
with the trace of fetches and verifications. -/
def walkLoop (env : Env) (pk : Bytes) :
    Nat → Nat → Bytes → Option Result →
    Except Err (Nat × Bytes × Option Result) × Trace
  | 0, trustRound, trustPrevSig, next => (.ok (trustRound, trustPrevSig, next), [])
  | fuel + 1, trustRound, trustPrevSig, _ =>
    let tr := trustRound + 1
    match env.getRes tr with
    | .error _ => (.error (.fetchErr tr), [.fetchRound tr])
    | .ok nx =>
      let b : Beacon := { PreviousSig := trustPrevSig, Round := tr, Signature := nx.Signature }
      let ipk := cloneKey pk
      if env.verifyV1 ipk b then
        match walkLoop env pk fuel tr nx.Signature (some nx) with
        | (res, t) => (res, .fetchRound tr :: .verifyV1Call b :: t)
      else
        (.error (.verifyV1Err b), [.fetchRound tr, .verifyV1Call b])

/-- The tail of getTrustedPreviousSignature after the loop: commit the
cache when the walk advanced and landed on the target, then return the
anchor signature, or the internal-consistency error when the final trust
round is not the target. -/
def walkFinish (s : VState) (target : Nat) (initialTrustRound : Nat) (t0 : Trace)
    (out : Except Err (Nat × Bytes × Option Result) × Trace) :
    Except Err Bytes × VState × Trace :=
  match out with
  | (.error e, t1) => (.error e, s, .fetchInfo :: (t0 ++ t1))
  | (.ok (trustRound, trustPrevSig, next), t1) =>
    let s' :=
      if trustRound = target ∧ initialTrustRound < trustRound then
        match next with
        | some nx => { s with pointOfTrust := some nx }
        | none => s
      else s
    if trustRound = target then
      (.ok trustPrevSig, s', .fetchInfo :: (t0 ++ t1))
    else
      (.error (.unexpectedTrustRound trustRound), s', .fetchInfo :: (t0 ++ t1))

/-- getTrustedPreviousSignature (verify.go): produce a verified previous
signature for `round`.  Round 1 returns the group hash.  Otherwise the
anchor is the cached point of trust when usable (cached round not above
the target round), else the walk restarts from round 1 with the group
hash (the depth-one recursive call re-fetches the chain info, hence the
extra fetchInfo event on the slow path).  The loop then advances to
`round - 1` verifying each link. -/
def getTrustedPreviousSignature (env : Env) (s : VState) (round : Nat) :
    Except Err Bytes × VState × Trace :=
  match env.infoRes with
  | .error _ => (.error .infoErr, s, [.fetchInfo])
  | .ok info =>
    if round = 1 then
      (.ok info.GroupHash, s, [.fetchInfo])
    else
      let a : Nat × Bytes × Trace :=
        match s.pointOfTrust with
        | none => (1, info.GroupHash, [.fetchInfo])
        | some pot =>
          if round < pot.Round then (1, info.GroupHash, [.fetchInfo])
          else (pot.Round, pot.Signature, [])
      walkFinish s (wm1 round) a.1 a.2.2
        (walkLoop env info.PublicKey (wm1 round - a.1) a.1 a.2.1 none)

/-- The scheme dispatch of verify (verify.go): build the beacon link from
the resolved previous signature `ps`, invoke the v2 primitive at or after
the threshold (v2 slot) and the v1 primitive below it (the slot selected
by the scheme tag), and on success overwrite the randomness with the
value derived from the corresponding signature slot. -/
def verifyTail (env : Env) (cfg : Config) (info : ChainInfo) (r : RandomData)
    (ps : Option Bytes) : Except Err RandomData × Trace :=
  let ipk := cloneKey info.PublicKey
  if cfg.v2from ≤ r.Rnd then
    let b : Beacon := { PreviousSig := ps.getD [], Round := r.Rnd, SignatureV2 := r.SigV2 }
    if env.verifyV2 ipk b then
      (.ok { r with Random := env.randomnessFrom r.SigV2 }, [.verifyV2Call b])
    else
      (.error (.verifyV2Err b), [.verifyV2Call b])
  else
    let b : Beacon := { PreviousSig := ps.getD [], Round := r.Rnd, Signature := r.Signature }
    if env.verifyV1 ipk b then
      (.ok { r with Random := env.randomnessFrom r.Sig }, [.verifyV1Call b])
    else
      (.error (.verifyV1Err b), [.verifyV1Call b])

/-- verify (verify.go): resolve the previous signature — below the v2
threshold, when strict mode is on or no hint is present, via the trust
chain walk; otherwise the hint is used directly — then dispatch on the
scheme. -/
def verify (env : Env) (cfg : Config) (s : VState) (info : ChainInfo) (r : RandomData) :
    Except Err RandomData × VState × Trace :=
  if r.Rnd < cfg.v2from ∧ (cfg.strict = true ∨ r.PreviousSignature = none) then
    match getTrustedPreviousSignature env s r.Rnd with
    | (.error e, s', t) => (.error e, s', .walkCall r.Rnd :: t)
    | (.ok ps, s', t) =>
      match verifyTail env cfg info r (some ps) with
      | (res, t2) => (res, s', (.walkCall r.Rnd :: t) ++ t2)
  else
    match verifyTail env cfg info r r.PreviousSignature with
    | (res, t2) => (res, s, t2)

/-- asRandomData (verify.go): identity on canonical results; otherwise
copy round, randomness and signature, selecting the v2 slot with scheme
tag 2 at or after the threshold and the v1 slot below it, and copy the
previous-signature hint when the capability is present. -/
def asRandomData (cfg : Config) : Result → RandomData
  | .rd rd => rd
  | .generic g =>
    let s := g.Sig
    let rd0 : RandomData := { Rnd := g.Rnd, Random := g.Random }
    let rd1 :=
      if cfg.v2from ≤ g.Rnd then { rd0 with SigV2 := s, version := 2 }
      else { rd0 with Sig := s }
    { rd1 with PreviousSignature := g.PrevSig }

/-- Get (verify.go): fetch the chain info, fetch the requested round,
adapt and verify; return the verified canonical result.  Fails closed on
any error. -/
def Get (env : Env) (cfg : Config) (s : VState) (round : Nat) :
    Except Err RandomData × VState × Trace :=
  match env.infoRes with
  | .error _ => (.error .infoErr, s, [.fetchInfo])
  | .ok info =>
    match env.getRes round with
    | .error _ => (.error (.fetchErr round), s, [.fetchInfo, .fetchRound round])
    | .ok r =>
      match verify env cfg s info (asRandomData cfg r) with
      | (.error e, s', t) => (.error e, s', .fetchInfo :: .fetchRound round :: t)
      | (.ok rd, s', t) => (.ok rd, s', .fetchInfo :: .fetchRound round :: t)

/-- The item a passing round contributes to the Watch output stream: the
original incoming result is forwarded; when it is canonical the verifier
mutated that same object in place, so the forwarded value carries the
recomputed randomness, while a non-canonical result is forwarded
unchanged. -/
def forwardItem (r : Result) (rd : RandomData) : Result :=
  match r with
  | .rd _ => .rd rd
  | .generic g => .generic g

/-- The loop body of Watch over the incoming stream: verify each adapted
item; on failure drop it and continue, on success forward it. -/
def watchLoop (env : Env) (cfg : Config) (info : ChainInfo) :
    VState → List Result → List Result × VState × Trace
  | s, [] => ([], s, [])
  | s, r :: rs =>
    match verify env cfg s info (asRandomData cfg r) with
    | (.ok rd, s', t) =>
      match watchLoop env cfg info s' rs with
      | (os, s2, t2) => (forwardItem r rd :: os, s2, t ++ t2)
    | (.error _, s', t) =>
      match watchLoop env cfg info s' rs with
      | (os, s2, t2) => (os, s2, t ++ t2)

/-- Watch (verify.go): fetch the chain info once; on failure the output
stream is closed immediately, empty, and the upstream is never
subscribed.  Otherwise subscribe upstream and filter the incoming stream
through verification; the output closes when the input ends. -/
def Watch (env : Env) (cfg : Config) (s : VState) (input : List Result) :
    List Result × VState × Trace :=
  match env.infoRes with
  | .error _ => ([], s, [.fetchInfo])
  | .ok info =>
    match watchLoop env cfg info s input with
    | (os, s', t) => (os, s', .fetchInfo :: .subscribe :: t)

/-- A signature trusted by the verification layer: the genesis group hash,
or a signature accepted by the v1 primitive in a beacon link whose
previous signature is itself trusted — a chain of verified links back to
the genesis identifier. -/
inductive TrustedSig (env : Env) (info : ChainInfo) : Bytes → Prop
  | genesis : TrustedSig env info info.GroupHash
  | step (prev sig : Bytes) (r : Nat) :
      TrustedSig env info prev →
      env.verifyV1 (cloneKey info.PublicKey)
        { PreviousSig := prev, Round := r, Signature := sig } = true →
      TrustedSig env info sig

/-- The cache invariant: whenever the point of trust is occupied, the
cached result's signature is trusted (verified transitively back to
genesis). -/
def Invariant (env : Env) (s : VState) : Prop :=
  ∀ res, s.pointOfTrust = some res →
    ∀ info, env.infoRes = .ok info → TrustedSig env info res.Signature

/-- An honest fetch collaborator: a successfully fetched result reports
the round it was requested for. -/
def EnvHonest (env : Env) : Prop :=
  ∀ k r, env.getRes k = .ok r → r.Round = k

/-- The walk anchor round determined by the cache: the cached round when
the cache is usable for the target, round 1 otherwise. -/
def anchorRound (s : VState) (round : Nat) : Nat :=
  match s.pointOfTrust with
  | none => 1
  | some pot => if round < pot.Round then 1 else pot.Round

/-
  Concrete instances used to exercise the model.
-/

/-- A concrete chain info. -/
def infoA : ChainInfo := { PublicKey := [0], GroupHash := [100] }

/-- A concrete environment: all-accepting crypto, honest fetches, round k
carrying signature [1, k] and upstream randomness [9, k]. -/
def envA : Env :=
  { infoRes := .ok infoA
    getRes := fun k => .ok (.generic { Rnd := k, Random := [9, k], Sig := [1, k] })
    verifyV1 := fun _ _ => true
    verifyV2 := fun _ _ => true
    randomnessFrom := fun sig => 0 :: sig }

/-- envA with failing chain-metadata retrieval. -/
def envBadInfo : Env := { envA with infoRes := .error () }

/-- envA with an always-rejecting v1 primitive. -/
def envZero : Env := { envA with verifyV1 := fun _ _ => false }

/-- envA with the v1 primitive rejecting exactly the tampered signature
[6] at round 2. -/
def envTamper : Env :=
  { envA with verifyV1 := fun _ b => decide (¬ (b.Round = 2 ∧ b.Signature = [6])) }

/-- Strict configuration, v2 threshold at round 100. -/
def cfgA : Config := { strict := true, v2from := 100 }

/-- Non-strict configuration, v2 threshold at round 100. -/
def cfgB : Config := { strict := false, v2from := 100 }

/-- The empty initial state. -/
def s0 : VState := { pointOfTrust := none }

/-- A state whose cache holds a round-7 result. -/
def sPot7 : VState :=
  { pointOfTrust := some (.generic { Rnd := 7, Random := [], Sig := [3] }) }

/-- An unverified result used to seed a cache. -/
def bogusRes : Result := .generic { Rnd := 5, Random := [], Sig := [7] }

/-- The three-item example stream of the spec: round 1 valid, round 2
with a tampered signature, round 3 valid. -/
def streamEx : List Result :=
  [.generic { Rnd := 1, Random := [1], Sig := [1, 1], PrevSig := some [100] },
   .generic { Rnd := 2, Random := [2], Sig := [6], PrevSig := some [1, 1] },
   .generic { Rnd := 3, Random := [3], Sig := [1, 3], PrevSig := some [6] }]

/-
  Basic lemmas about the loop and the walk.
-/

theorem wm1_eq {r : Nat} (h1 : 1 ≤ r) (h64 : r ≤ 2 ^ 64) : wm1 r = r - 1 := by
  have hpos : 1 ≤ 2 ^ 64 := Nat.one_le_two_pow
  unfold wm1
  have hEq : r + (2 ^ 64 - 1) = (r - 1) + 2 ^ 64 := by omega
  rw [hEq, Nat.add_mod_right]
  exact Nat.mod_eq_of_lt (by omega)

theorem walkLoop_ok (env : Env) (pk : Bytes) :
    ∀ fuel tr ps nx tr' ps' nx' t,
      walkLoop env pk fuel tr ps nx = (.ok (tr', ps', nx'), t) →
      tr' = tr + fuel ∧ (fuel = 0 → ps' = ps ∧ nx' = nx ∧ t = []) ∧
        (0 < fuel → ∃ m, nx' = some m ∧ ps' = m.Signature ∧ env.getRes tr' = .ok m) := by
  intro fuel
  induction fuel with
  | zero =>
    intro tr ps nx tr' ps' nx' t h
    rw [walkLoop, Prod.mk.injEq, Except.ok.injEq, Prod.mk.injEq, Prod.mk.injEq] at h
    obtain ⟨⟨h1, h2, h3⟩, h4⟩ := h
    exact ⟨h1.symm, fun _ => ⟨h2.symm, h3.symm, h4.symm⟩, fun hc => absurd hc (by omega)⟩
  | succ n ih =>
    intro tr ps nx tr' ps' nx' t h
    rw [walkLoop] at h
    split at h
    · simp at h
    · next nx0 heq =>
      split at h
      next res0 trec hrec =>
        dsimp only at h
        split at h
        · have hfst : res0 = Except.ok (tr', ps', nx') := congrArg Prod.fst h
          obtain ⟨htr, hz, hp⟩ :=
            ih (tr + 1) nx0.Signature (some nx0) tr' ps' nx' trec (by rw [hrec, hfst])
          refine ⟨by omega, fun hc => absurd hc (by omega), fun _ => ?_⟩
          rcases Nat.eq_zero_or_pos n with hn | hn
          · obtain ⟨hps, hnx, -⟩ := hz hn
            refine ⟨nx0, hnx, hps, ?_⟩
            rw [htr, hn, Nat.add_zero]
            exact heq
          · exact hp hn
        · simp at h

theorem walkLoop_trace_mem (env : Env) (pk : Bytes) :
    ∀ fuel tr ps nx e, e ∈ (walkLoop env pk fuel tr ps nx).2 →
      ∃ k, tr < k ∧ k ≤ tr + fuel ∧
        (e = .fetchRound k ∨ ∃ b, b.Round = k ∧ e = .verifyV1Call b) := by
  intro fuel
  induction fuel with
  | zero => intro tr ps nx e h; rw [walkLoop] at h; simp at h
  | succ n ih =>
    intro tr ps nx e h
    rw [walkLoop] at h
    split at h
    · simp only [List.mem_singleton] at h
      exact ⟨tr + 1, by omega, by omega, .inl h⟩
    · next nx0 heq =>
      split at h
      next res0 trec hrec =>
        dsimp only at h
        split at h
        · simp only [List.mem_cons] at h
          rcases h with h | h | h
          · exact ⟨tr + 1, by omega, by omega, .inl h⟩
          · exact ⟨tr + 1, by omega, by omega, .inr ⟨_, rfl, h⟩⟩
          · obtain ⟨k, hk1, hk2, hk3⟩ :=
              ih (tr + 1) nx0.Signature (some nx0) e (by rw [hrec]; exact h)
            exact ⟨k, by omega, by omega, hk3⟩
        · simp only [List.mem_cons, List.not_mem_nil, or_false] at h
          rcases h with h | h
          · exact ⟨tr + 1, by omega, by omega, .inl h⟩
          · exact ⟨tr + 1, by omega, by omega, .inr ⟨_, rfl, h⟩⟩

theorem walkFinish_error {s : VState} {target tr0 : Nat} {t0 : Trace}
    {out : Except Err (Nat × Bytes × Option Result) × Trace} {e : Err} {s' : VState} {t : Trace}
    (h : walkFinish s target tr0 t0 out = (.error e, s', t)) : s' = s := by
  rcases out with ⟨res, t1⟩
  cases res with
  | error e0 =>
    simp only [walkFinish, Prod.mk.injEq] at h
    exact h.2.1.symm
  | ok trip =>
    obtain ⟨tr, ps, nx⟩ := trip
    simp only [walkFinish] at h
    by_cases htr : tr = target
    · simp [htr] at h
    · simp only [htr, false_and, if_false, Prod.mk.injEq] at h
      exact h.2.1.symm

theorem walkFinish_trace (s : VState) (target tr0 : Nat) (t0 : Trace)
    (out : Except Err (Nat × Bytes × Option Result) × Trace) :
    (walkFinish s target tr0 t0 out).2.2 = .fetchInfo :: (t0 ++ out.2) := by
  rcases out with ⟨res, t1⟩
  cases res with
  | error e0 => simp [walkFinish]
  | ok trip =>
    obtain ⟨tr, ps, nx⟩ := trip
    simp only [walkFinish]
    by_cases htr : tr = target <;> simp [htr]

theorem getTPS_infoErr {env : Env} (s : VState) (round : Nat)
    (h : env.infoRes = .error ()) :
    getTrustedPreviousSignature env s round = (.error .infoErr, s, [.fetchInfo]) := by
  simp [getTrustedPreviousSignature, h]

theorem getTPS_one {env : Env} {info : ChainInfo} (s : VState)
    (hinfo : env.infoRes = .ok info) :
    getTrustedPreviousSignature env s 1 = (.ok info.GroupHash, s, [.fetchInfo]) := by
  simp [getTrustedPreviousSignature, hinfo]

theorem getTPS_warm_exact {env : Env} {info : ChainInfo} {s : VState} {pot : Result}
    {round : Nat} (hinfo : env.infoRes = .ok info) (h2 : 2 ≤ round) (h64 : round ≤ 2 ^ 64)
    (hpot : s.pointOfTrust = some pot) (hr : pot.Round = round - 1) :
    getTrustedPreviousSignature env s round = (.ok pot.Signature, s, [.fetchInfo]) := by
  have htgt : wm1 round = round - 1 := wm1_eq (by omega) h64
  have hne : ¬ round = 1 := by omega
  have hlt : ¬ round < pot.Round := by omega
  have hlt2 : ¬ round < round - 1 := by omega
  simp only [getTrustedPreviousSignature, hinfo, hne, if_false, hpot, hlt, htgt, hr, hlt2]
  rw [Nat.sub_self]
  simp [walkLoop, walkFinish]

theorem getTPS_cold_two {env : Env} {info : ChainInfo} {s : VState}
    (hinfo : env.infoRes = .ok info)
    (hanchor : s.pointOfTrust = none ∨ ∃ pot, s.pointOfTrust = some pot ∧ 2 < pot.Round) :
    getTrustedPreviousSignature env s 2 = (.ok info.GroupHash, s, [.fetchInfo, .fetchInfo]) := by
  have htgt : wm1 2 = 1 := wm1_eq (by omega) (by norm_num)
  rcases hanchor with hpot | ⟨pot, hpot, hgt⟩
  · simp only [getTrustedPreviousSignature, hinfo, hpot, htgt]
    norm_num
    simp [walkLoop, walkFinish]
  · have hlt : 2 < pot.Round := hgt
    simp only [getTrustedPreviousSignature, hinfo, hpot, htgt, hlt, if_true]
    norm_num
    simp [walkLoop, walkFinish, hlt]

theorem getTPS_trace_mem (env : Env) (s : VState) (round : Nat) :
    ∀ e ∈ (getTrustedPreviousSignature env s round).2.2,
      e = .fetchInfo ∨ ∃ k, anchorRound s round < k ∧
        (e = .fetchRound k ∨ ∃ b, b.Round = k ∧ e = .verifyV1Call b) := by
  intro e he
  unfold getTrustedPreviousSignature at he
  split at he
  · simp only [List.mem_singleton] at he
    exact .inl he
  · next info heq =>
    split at he
    · simp only [List.mem_singleton] at he
      exact .inl he
    · rw [walkFinish_trace] at he
      simp only [List.mem_cons, List.mem_append] at he
      rcases he with he | he | he
      · exact .inl he
      · -- an element of the anchor trace, which is empty or [fetchInfo]
        left
        cases hpot : s.pointOfTrust with
        | none => simp [hpot] at he; exact he
        | some pot =>
          by_cases hlt : round < pot.Round
          · simp [hpot, hlt] at he; exact he
          · simp [hpot, hlt] at he
      · -- an element of the loop trace: strictly above the anchor round
        right
        have hb := walkLoop_trace_mem env info.PublicKey _ _ _ _ e he
        obtain ⟨k, hk1, hk2, hk3⟩ := hb
        refine ⟨k, ?_, hk3⟩
        have : anchorRound s round =
            (match s.pointOfTrust with
              | none => ((1 : Nat), info.GroupHash, ([Ev.fetchInfo] : Trace))
              | some pot =>
                if round < pot.Round then (1, info.GroupHash, [Ev.fetchInfo])
                else (pot.Round, pot.Signature, [])).1 := by
          cases hpot : s.pointOfTrust with
          | none => simp [anchorRound, hpot]
          | some pot =>
            by_cases hlt : round < pot.Round <;> simp [anchorRound, hpot, hlt]
        rw [this]
        exact hk1

theorem walkFinish_ok {s : VState} {target tr0 : Nat} {t0 : Trace}
    {res : Except Err (Nat × Bytes × Option Result)} {t1 : Trace}
    {ps : Bytes} {s' : VState} {t : Trace}
    (h : walkFinish s target tr0 t0 (res, t1) = (.ok ps, s', t)) :
    ∃ nx, res = .ok (target, ps, nx) ∧
      ((s' = s ∧ (¬ tr0 < target ∨ nx = none)) ∨
        ∃ m, nx = some m ∧ tr0 < target ∧ s' = { s with pointOfTrust := some m }) := by
  cases res with
  | error e0 => exact absurd (congrArg Prod.fst h) (by simp [walkFinish])
  | ok trip =>
    obtain ⟨tr, ps1, nx⟩ := trip
    by_cases htr : tr = target
    · subst htr
      simp only [walkFinish, if_pos rfl, true_and] at h
      have hps : ps1 = ps := by
        have := congrArg Prod.fst h
        simpa using this
      subst hps
      by_cases hadv : tr0 < tr
      · rw [if_pos hadv] at h
        cases nx with
        | none =>
          have hs : s' = s := by
            have := congrArg (fun p => p.2.1) h
            simpa using this.symm
          exact ⟨none, rfl, .inl ⟨hs, .inr rfl⟩⟩
        | some m =>
          have hs : s' = { s with pointOfTrust := some m } := by
            have := congrArg (fun p => p.2.1) h
            simpa using this.symm
          exact ⟨some m, rfl, .inr ⟨m, rfl, hadv, hs⟩⟩
      · rw [if_neg hadv] at h
        have hs : s' = s := by
          have := congrArg (fun p => p.2.1) h
          simpa using this.symm
        exact ⟨nx, rfl, .inl ⟨hs, .inl hadv⟩⟩
    · exfalso
      simp only [walkFinish, htr, if_false] at h
      exact absurd (congrArg Prod.fst h) (by simp)

theorem getTPS_ok_cases {env : Env} {info : ChainInfo} {s : VState} {round : Nat}
    {ps : Bytes} {s' : VState} {t : Trace}
    (hinfo : env.infoRes = .ok info) (honest : EnvHonest env)
    (h2 : 2 ≤ round) (h64 : round ≤ 2 ^ 64)
    (h : getTrustedPreviousSignature env s round = (.ok ps, s', t)) :
    (∃ m, s'.pointOfTrust = some m ∧ m.Round = round - 1 ∧ m.Signature = ps) ∨
    (s' = s ∧
      ((∃ pot, s.pointOfTrust = some pot ∧ pot.Round = round - 1 ∧ ps = pot.Signature) ∨
       (round = 2 ∧ ps = info.GroupHash ∧
         (s.pointOfTrust = none ∨ ∃ pot, s.pointOfTrust = some pot ∧ round < pot.Round)))) := by
  have htgt : wm1 round = round - 1 := wm1_eq (by omega) h64
  have hne : ¬ round = 1 := by omega
  unfold getTrustedPreviousSignature at h
  rw [hinfo] at h
  simp only [hne, if_false, htgt] at h
  cases hpot : s.pointOfTrust with
  | none =>
    rw [hpot] at h
    dsimp only at h
    rcases hloop : walkLoop env info.PublicKey (round - 1 - 1) 1 info.GroupHash none
      with ⟨res, t1⟩
    rw [hloop] at h
    obtain ⟨nx, hres, hcase⟩ := walkFinish_ok h
    rw [hres] at hloop
    obtain ⟨htr', -, hp⟩ :=
      walkLoop_ok env info.PublicKey _ _ _ _ _ _ _ _ hloop
    rcases hcase with ⟨hs, hnx⟩ | ⟨m, hnx, hadv, hs⟩
    · -- no advance: fuel must be zero, so round = 2 and ps is the group hash
      have hfuel : round - 1 - 1 = 0 := by
        rcases hnx with hadv | hnone
        · omega
        · by_contra hne0
          obtain ⟨m, hm, -, -⟩ := hp (by omega)
          rw [hnone] at hm
          exact Option.noConfusion hm
      have hr2 : round = 2 := by omega
      obtain ⟨-, hz, -⟩ := walkLoop_ok env info.PublicKey _ _ _ _ _ _ _ _ hloop
      obtain ⟨hps, -, -⟩ := hz hfuel
      exact .inr ⟨hs, .inr ⟨hr2, hps, .inl rfl⟩⟩
    · -- committed: the cache now holds the last fetched result at round - 1
      obtain ⟨m2, hm2, hsig, hget⟩ := hp (by omega)
      rw [hnx] at hm2
      obtain rfl : m = m2 := by injection hm2
      refine .inl ⟨m, by rw [hs], ?_, hsig.symm⟩
      have := honest _ _ hget
      omega
  | some pot =>
    rw [hpot] at h
    dsimp only at h
    by_cases hstale : round < pot.Round
    · rw [if_pos hstale] at h
      dsimp only at h
      rcases hloop : walkLoop env info.PublicKey (round - 1 - 1) 1 info.GroupHash none
        with ⟨res, t1⟩
      rw [hloop] at h
      obtain ⟨nx, hres, hcase⟩ := walkFinish_ok h
      rw [hres] at hloop
      obtain ⟨htr', -, hp⟩ :=
        walkLoop_ok env info.PublicKey _ _ _ _ _ _ _ _ hloop
      rcases hcase with ⟨hs, hnx⟩ | ⟨m, hnx, hadv, hs⟩
      · have hfuel : round - 1 - 1 = 0 := by
          rcases hnx with hadv | hnone
          · omega
          · by_contra hne0
            obtain ⟨m, hm, -, -⟩ := hp (by omega)
            rw [hnone] at hm
            exact Option.noConfusion hm
        have hr2 : round = 2 := by omega
        obtain ⟨-, hz, -⟩ := walkLoop_ok env info.PublicKey _ _ _ _ _ _ _ _ hloop
        obtain ⟨hps, -, -⟩ := hz hfuel
        exact .inr ⟨hs, .inr ⟨hr2, hps, .inr ⟨pot, rfl, hstale⟩⟩⟩
      · obtain ⟨m2, hm2, hsig, hget⟩ := hp (by omega)
        rw [hnx] at hm2
        obtain rfl : m = m2 := by injection hm2
        refine .inl ⟨m, by rw [hs], ?_, hsig.symm⟩
        have := honest _ _ hget
        omega
    · rw [if_neg hstale] at h
      dsimp only at h
      rcases hloop : walkLoop env info.PublicKey (round - 1 - pot.Round) pot.Round
          pot.Signature none with ⟨res, t1⟩
      rw [hloop] at h
      obtain ⟨nx, hres, hcase⟩ := walkFinish_ok h
      rw [hres] at hloop
      obtain ⟨htr', hz, hp⟩ :=
        walkLoop_ok env info.PublicKey _ _ _ _ _ _ _ _ hloop
      rcases hcase with ⟨hs, hnx⟩ | ⟨m, hnx, hadv, hs⟩
      · -- no advance: the cached round is exactly round - 1
        have hfuel : round - 1 - pot.Round = 0 := by
          rcases hnx with hadv | hnone
          · omega
          · by_contra hne0
            obtain ⟨m, hm, -, -⟩ := hp (by omega)
            rw [hnone] at hm
            exact Option.noConfusion hm
        obtain ⟨hps, -, -⟩ := hz hfuel
        have hpr : pot.Round = round - 1 := by omega
        exact .inr ⟨hs, .inl ⟨pot, rfl, hpr, hps⟩⟩
      · obtain ⟨m2, hm2, hsig, hget⟩ := hp (by omega)
        rw [hnx] at hm2
        obtain rfl : m = m2 := by injection hm2
        refine .inl ⟨m, by rw [hs], ?_, hsig.symm⟩
        have := honest _ _ hget
        omega

theorem getTPS_rerun {env : Env} {info : ChainInfo} {s : VState} {round : Nat}
    {ps : Bytes} {s1 : VState} {t : Trace}
    (hinfo : env.infoRes = .ok info) (honest : EnvHonest env)
    (h2 : 2 ≤ round) (h64 : round ≤ 2 ^ 64)
    (h : getTrustedPreviousSignature env s round = (.ok ps, s1, t)) :
    ∃ t2, getTrustedPreviousSignature env s1 round = (.ok ps, s1, t2) ∧
      ∀ e ∈ t2, e = Ev.fetchInfo := by
  rcases getTPS_ok_cases hinfo honest h2 h64 h with
    ⟨m, hm, hr, hsig⟩ | ⟨hs, ⟨pot, hpot, hpr, hps⟩ | ⟨hr2, hps, halt⟩⟩
  · refine ⟨[.fetchInfo], ?_, by simp⟩
    have hw := getTPS_warm_exact hinfo h2 h64 hm hr
    rw [hsig] at hw
    exact hw
  · subst hs
    refine ⟨[.fetchInfo], ?_, by simp⟩
    have hw := getTPS_warm_exact hinfo h2 h64 hpot hpr
    rw [← hps] at hw
    exact hw
  · subst hs
    subst hr2
    refine ⟨[.fetchInfo, .fetchInfo], ?_, by simp⟩
    have hw := getTPS_cold_two hinfo halt
    rw [← hps] at hw
    exact hw

theorem asRandomData_Rnd (cfg : Config) (r : Result) :
    (asRandomData cfg r).Rnd = r.Round := by
  cases r with
  | rd x => rfl
  | generic g =>
    simp only [asRandomData, Result.Round]
    by_cases hv : cfg.v2from ≤ g.Rnd <;> simp [hv]

theorem verifyTail_trace_v2 {env : Env} {cfg : Config} {info : ChainInfo}
    {r : RandomData} {ps : Option Bytes} (h : cfg.v2from ≤ r.Rnd) :
    (verifyTail env cfg info r ps).2 =
      [.verifyV2Call { PreviousSig := ps.getD [], Round := r.Rnd, SignatureV2 := r.SigV2 }] := by
  simp only [verifyTail, h, if_true]
  split <;> rfl

theorem verifyTail_trace_v1 {env : Env} {cfg : Config} {info : ChainInfo}
    {r : RandomData} {ps : Option Bytes} (h : ¬ cfg.v2from ≤ r.Rnd) :
    (verifyTail env cfg info r ps).2 =
      [.verifyV1Call { PreviousSig := ps.getD [], Round := r.Rnd, Signature := r.Signature }] := by
  simp only [verifyTail, h, if_false]
  split <;> rfl

theorem verifyTail_ok_shape {env : Env} {cfg : Config} {info : ChainInfo}
    {r : RandomData} {ps : Option Bytes} {rd : RandomData} {t : Trace}
    (h : verifyTail env cfg info r ps = (.ok rd, t)) :
    rd = { r with
      Random := env.randomnessFrom (if cfg.v2from ≤ r.Rnd then r.SigV2 else r.Sig) } := by
  unfold verifyTail at h
  by_cases hv : cfg.v2from ≤ r.Rnd
  · rw [if_pos hv] at h
    dsimp only at h
    rw [if_pos hv]
    split at h
    · have := congrArg Prod.fst h
      simpa using this.symm
    · exact absurd (congrArg Prod.fst h) (by simp)
  · rw [if_neg hv] at h
    dsimp only at h
    rw [if_neg hv]
    split at h
    · have := congrArg Prod.fst h
      simpa using this.symm
    · exact absurd (congrArg Prod.fst h) (by simp)

theorem getTPS_error_state {env : Env} {s : VState} {round : Nat}
    {e : Err} {s' : VState} {t : Trace}
    (h : getTrustedPreviousSignature env s round = (.error e, s', t)) : s' = s := by
  unfold getTrustedPreviousSignature at h
  split at h
  · exact (congrArg Prod.fst (congrArg Prod.snd h)).symm
  · split at h
    · exact absurd (congrArg Prod.fst h) (by simp)
    · exact walkFinish_error h

/-- C6: whenever the trust-chain walk returns an error — a fetch error, a
verification-primitive failure on an intermediate link, or the
internal-consistency error — the point-of-trust cache is exactly as it
was before the call. -/
theorem C6_cache_unchanged_on_error (env : Env) (s : VState) (round : Nat)
    (e : Err) (s' : VState) (t : Trace)
    (h : getTrustedPreviousSignature env s round = (.error e, s', t)) : s' = s :=
  getTPS_error_state h

/-- Witness for C6: a failing walk (rejecting v1 primitive) leaves the
cache untouched. -/
theorem C6_witness : (getTrustedPreviousSignature envZero s0 3).2.1 = s0 :=
  C6_cache_unchanged_on_error envZero s0 3
    (.verifyV1Err { PreviousSig := [100], Round := 2, Signature := [1, 2] }) s0
    [.fetchInfo, .fetchInfo, .fetchRound 2,
      .verifyV1Call { PreviousSig := [100], Round := 2, Signature := [1, 2] }]
    rfl

/-- C7: if fetching the chain metadata fails, a single-round Get returns
that error with no round fetch attempted, and Watch returns an already
closed, empty stream without ever subscribing upstream. -/
theorem C7_info_failure_fail_closed (env : Env) (cfg : Config) (s : VState)
    (round : Nat) (input : List Result) (h : env.infoRes = .error ()) :
    Get env cfg s round = (.error .infoErr, s, [.fetchInfo]) ∧
    Watch env cfg s input = ([], s, [.fetchInfo]) := by
  constructor
  · simp [Get, h]
  · simp [Watch, h]

/-- Witness for C7 at a concrete failing environment. -/
theorem C7_witness :
    Get envBadInfo cfgA s0 3 = (.error .infoErr, s0, [.fetchInfo]) ∧
    Watch envBadInfo cfgA s0 [] = ([], s0, [.fetchInfo]) :=
  C7_info_failure_fail_closed envBadInfo cfgA s0 3 [] rfl

/-- C10: when the cache holds a result whose round equals the requested
round exactly (round at least 2), the walk returns the
internal-consistency error, fetches no round, invokes no verification
primitive (the trace is a single metadata fetch), and leaves the cache
unmodified. -/
theorem C10_exact_cache_round_error (env : Env) (s : VState) (info : ChainInfo)
    (pot : Result) (r : Nat) (hinfo : env.infoRes = .ok info)
    (hpot : s.pointOfTrust = some pot) (hr : pot.Round = r)
    (h2 : 2 ≤ r) (h64 : r ≤ 2 ^ 64) :
    getTrustedPreviousSignature env s r = (.error (.unexpectedTrustRound r), s, [.fetchInfo]) := by
  have htgt : wm1 r = r - 1 := wm1_eq (by omega) h64
  have hne : ¬ r = 1 := by omega
  have hlt : ¬ r < pot.Round := by omega
  have hfuel : r - 1 - r = 0 := by omega
  have hneq : ¬ r = r - 1 := by omega
  have hltr : ¬ r < r := by omega
  simp only [getTrustedPreviousSignature, hinfo, hne, if_false, hpot, hlt, htgt, hr, hltr]
  rw [hfuel]
  simp [walkLoop, walkFinish, hneq]

/-- Witness for C10 at a concrete state whose cache sits at round 7. -/
theorem C10_witness :
    getTrustedPreviousSignature envA sPot7 7 =
      (.error (.unexpectedTrustRound 7), sPot7, [.fetchInfo]) :=
  C10_exact_cache_round_error envA sPot7 infoA
    (.generic { Rnd := 7, Random := [], Sig := [3] }) 7 rfl rfl rfl
    (by norm_num) (by norm_num)

theorem triple_eq {α β γ : Type _} {a a' : α} {b b' : β} {c c' : γ}
    (h : (a, b, c) = (a', b', c')) : a = a' ∧ b = b' ∧ c = c' := by
  injection h with h1 h2
  injection h2 with h2 h3
  exact ⟨h1, h2, h3⟩

/-- C3 (corrected): if Get for round R succeeds, a second Get for R on the
resulting state returns the identical result — in particular byte-identical
randomness — and touches no round other than R itself: the chain walk
short-circuits on the warm cache, so every round fetch of the second call
is the direct fetch of R and every primitive invocation is on round R.
(The second call does re-fetch round R and re-verify its signature.) -/
theorem C3_amended_warm_second_get (env : Env) (cfg : Config) (s : VState) (R : Nat)
    (rd : RandomData) (s1 : VState) (t1 : Trace)
    (honest : EnvHonest env) (hR1 : 1 ≤ R) (h64 : R ≤ 2 ^ 64)
    (h : Get env cfg s R = (.ok rd, s1, t1)) :
    ∃ t2, Get env cfg s1 R = (.ok rd, s1, t2) ∧
      (∀ k, Ev.fetchRound k ∈ t2 → k = R) ∧
      (∀ b, Ev.verifyV1Call b ∈ t2 → b.Round = R) ∧
      (∀ b, Ev.verifyV2Call b ∈ t2 → b.Round = R) := by
  unfold Get at h
  cases hinfo : env.infoRes with
  | error u => rw [hinfo] at h; simp at h
  | ok info =>
  rw [hinfo] at h
  dsimp only at h
  cases hget : env.getRes R with
  | error u => rw [hget] at h; simp at h
  | ok r =>
  rw [hget] at h
  dsimp only at h
  rcases hv : verify env cfg s info (asRandomData cfg r) with ⟨vres, sv, tv⟩
  rw [hv] at h
  cases vres with
  | error e => simp at h
  | ok rd0 =>
  dsimp only at h
  obtain ⟨h1, h2, h3⟩ := triple_eq h
  have hrd : rd = rd0 := by simpa using h1.symm
  have hsv : s1 = sv := h2.symm
  subst hrd
  subst hsv
  have hR0 : (asRandomData cfg r).Rnd = R := by
    rw [asRandomData_Rnd]
    exact honest R r hget
  unfold verify at hv
  by_cases hcond : (asRandomData cfg r).Rnd < cfg.v2from ∧
      (cfg.strict = true ∨ (asRandomData cfg r).PreviousSignature = none)
  · rw [if_pos hcond] at hv
    rcases hwalk : getTrustedPreviousSignature env s (asRandomData cfg r).Rnd
      with ⟨wres, sW, tW⟩
    rw [hwalk] at hv
    cases wres with
    | error e => exact absurd (congrArg Prod.fst hv) (by simp)
    | ok ps =>
    dsimp only at hv
    rcases hvt : verifyTail env cfg info (asRandomData cfg r) (some ps) with ⟨vtres, vtt⟩
    rw [hvt] at hv
    dsimp only at hv
    obtain ⟨hvtres, hsW, htv⟩ := triple_eq hv
    have hsW2 : s1 = sW := hsW.symm
    subst hsW2
    rw [hR0] at hwalk
    have hrerun : ∃ t2w, getTrustedPreviousSignature env s1 R = (.ok ps, s1, t2w) ∧
        ∀ e ∈ t2w, e = Ev.fetchInfo := by
      rcases Nat.lt_or_ge R 2 with hRa | hRb
      · have hReq : R = 1 := by omega
        subst hReq
        have h1st := getTPS_one s hinfo
        rw [hwalk] at h1st
        obtain ⟨hps, hsx, htW⟩ := triple_eq h1st
        have hps2 : ps = info.GroupHash := by simpa using hps
        rw [hsx, hps2]
        exact ⟨[.fetchInfo], getTPS_one s hinfo, by simp⟩
      · exact getTPS_rerun hinfo honest hRb h64 hwalk
    obtain ⟨t2w, hw2, ht2w⟩ := hrerun
    have hvttEq : vtt = (verifyTail env cfg info (asRandomData cfg r) (some ps)).2 :=
      (congrArg Prod.snd hvt).symm
    refine ⟨.fetchInfo :: .fetchRound R :: ((.walkCall R :: t2w) ++ vtt), ?_, ?_, ?_, ?_⟩
    · unfold Get
      rw [hinfo]
      dsimp only
      rw [hget]
      dsimp only
      rw [verify, if_pos hcond, hR0, hw2]
      dsimp only
      rw [hvt]
      dsimp only
      rw [hvtres]
    · intro k hk
      simp only [List.mem_cons, List.mem_append] at hk
      rcases hk with hk | hk | (hk | hk) | hk
      · exact absurd hk (by simp)
      · injection hk with hk
      · exact absurd hk (by simp)
      · exact absurd (ht2w _ hk) (by simp)
      · exfalso
        rw [hvttEq] at hk
        by_cases hv2 : cfg.v2from ≤ (asRandomData cfg r).Rnd
        · rw [verifyTail_trace_v2 hv2] at hk
          simp at hk
        · rw [verifyTail_trace_v1 hv2] at hk
          simp at hk
    · intro b hb
      simp only [List.mem_cons, List.mem_append] at hb
      rcases hb with hb | hb | (hb | hb) | hb
      · exact absurd hb (by simp)
      · exact absurd hb (by simp)
      · exact absurd hb (by simp)
      · exact absurd (ht2w _ hb) (by simp)
      · rw [hvttEq] at hb
        by_cases hv2 : cfg.v2from ≤ (asRandomData cfg r).Rnd
        · rw [verifyTail_trace_v2 hv2] at hb
          simp at hb
        · rw [verifyTail_trace_v1 hv2] at hb
          simp only [List.mem_singleton] at hb
          injection hb with hb
          rw [hb]
          exact hR0
    · intro b hb
      simp only [List.mem_cons, List.mem_append] at hb
      rcases hb with hb | hb | (hb | hb) | hb
      · exact absurd hb (by simp)
      · exact absurd hb (by simp)
      · exact absurd hb (by simp)
      · exact absurd (ht2w _ hb) (by simp)
      · rw [hvttEq] at hb
        by_cases hv2 : cfg.v2from ≤ (asRandomData cfg r).Rnd
        · rw [verifyTail_trace_v2 hv2] at hb
          simp only [List.mem_singleton] at hb
          injection hb with hb
          rw [hb]
          exact hR0
        · rw [verifyTail_trace_v1 hv2] at hb
          simp at hb
  · rw [if_neg hcond] at hv
    rcases hvt : verifyTail env cfg info (asRandomData cfg r)
        (asRandomData cfg r).PreviousSignature with ⟨vtres, vtt⟩
    rw [hvt] at hv
    dsimp only at hv
    obtain ⟨hvtres, hsW, htv⟩ := triple_eq hv
    have hsW2 : s1 = s := hsW.symm
    subst hsW2
    have hvttEq : vtt =
        (verifyTail env cfg info (asRandomData cfg r)
          (asRandomData cfg r).PreviousSignature).2 :=
      (congrArg Prod.snd hvt).symm
    refine ⟨.fetchInfo :: .fetchRound R :: vtt, ?_, ?_, ?_, ?_⟩
    · unfold Get
      rw [hinfo]
      dsimp only
      rw [hget]
      dsimp only
      rw [verify, if_neg hcond, hvt]
      dsimp only
      rw [hvtres]
    · intro k hk
      simp only [List.mem_cons] at hk
      rcases hk with hk | hk | hk
      · exact absurd hk (by simp)
      · injection hk with hk
      · exfalso
        rw [hvttEq] at hk
        by_cases hv2 : cfg.v2from ≤ (asRandomData cfg r).Rnd
        · rw [verifyTail_trace_v2 hv2] at hk
          simp at hk
        · rw [verifyTail_trace_v1 hv2] at hk
          simp at hk
    · intro b hb
      simp only [List.mem_cons] at hb
      rcases hb with hb | hb | hb
      · exact absurd hb (by simp)
      · exact absurd hb (by simp)
      · rw [hvttEq] at hb
        by_cases hv2 : cfg.v2from ≤ (asRandomData cfg r).Rnd
        · rw [verifyTail_trace_v2 hv2] at hb
          simp at hb
        · rw [verifyTail_trace_v1 hv2] at hb
          simp only [List.mem_singleton] at hb
          injection hb with hb
          rw [hb]
          exact hR0
    · intro b hb
      simp only [List.mem_cons] at hb
      rcases hb with hb | hb | hb
      · exact absurd hb (by simp)
      · exact absurd hb (by simp)
      · rw [hvttEq] at hb
        by_cases hv2 : cfg.v2from ≤ (asRandomData cfg r).Rnd
        · rw [verifyTail_trace_v2 hv2] at hb
          simp only [List.mem_singleton] at hb
          injection hb with hb
          rw [hb]
          exact hR0
        · rw [verifyTail_trace_v1 hv2] at hb
          simp at hb

/-- Counterexample for C3 as stated: after a successful strict Get of
round 2, the second Get of round 2 on the same client performs a round
fetch and a cryptographic verification again — not zero of either. -/
theorem C3_counterexample :
    (Get envA cfgA s0 2).1 =
      .ok { Rnd := 2, Random := [0, 1, 2], Sig := [1, 2] } ∧
    Ev.fetchRound 2 ∈ (Get envA cfgA (Get envA cfgA s0 2).2.1 2).2.2 ∧
    Ev.verifyV1Call { PreviousSig := [100], Round := 2, Signature := [1, 2] } ∈
      (Get envA cfgA (Get envA cfgA s0 2).2.1 2).2.2 := by
  refine ⟨rfl, ?_, ?_⟩ <;> decide

/-- C1 (corrected): after a successful trust-chain walk targeting round R
(R at least 2), a subsequent walk targeting R+1 fetches and v1-verifies
only rounds at or above R: nothing at or below R-1 is re-fetched or
re-verified.  (Round R itself may be fetched and verified again, since
the cache holds the round R-1 result after the first walk.) -/
theorem C1_amended_walk_progress (env : Env) (s : VState) (R : Nat)
    (ps : Bytes) (s1 : VState) (t1 : Trace)
    (honest : EnvHonest env) (h2 : 2 ≤ R) (h64 : R + 1 ≤ 2 ^ 64)
    (h : getTrustedPreviousSignature env s R = (.ok ps, s1, t1)) :
    (∀ k, Ev.fetchRound k ∈ (getTrustedPreviousSignature env s1 (R + 1)).2.2 → R ≤ k) ∧
    (∀ b, Ev.verifyV1Call b ∈ (getTrustedPreviousSignature env s1 (R + 1)).2.2 →
      R ≤ b.Round) := by
  cases hinfo : env.infoRes with
  | error u =>
    cases u
    rw [getTPS_infoErr s R hinfo] at h
    simp at h
  | ok info =>
  have hanch : R - 1 ≤ anchorRound s1 (R + 1) := by
    rcases getTPS_ok_cases hinfo honest h2 (by omega) h with
      ⟨m, hm, hr, -⟩ | ⟨hs, ⟨pot, hpot, hpr, -⟩ | ⟨hr2, -, halt⟩⟩
    · simp only [anchorRound, hm]
      rw [hr]
      have hx : ¬ (R + 1 < R - 1) := by omega
      rw [if_neg hx]
    · subst hs
      simp only [anchorRound, hpot]
      rw [hpr]
      have hx : ¬ (R + 1 < R - 1) := by omega
      rw [if_neg hx]
    · subst hs
      rcases halt with hnone | ⟨pot, hpot, hgt⟩
      · simp only [anchorRound, hnone]
        omega
      · simp only [anchorRound, hpot]
        by_cases hx : R + 1 < pot.Round
        · rw [if_pos hx]; omega
        · rw [if_neg hx]; omega
  constructor
  · intro k hk
    rcases getTPS_trace_mem env s1 (R + 1) _ hk with he | ⟨k2, hk2, hkind⟩
    · exact absurd he (by simp)
    · rcases hkind with he | ⟨b, hbr, he⟩
      · injection he with he
        omega
      · exact absurd he (by simp)
  · intro b hb
    rcases getTPS_trace_mem env s1 (R + 1) _ hb with he | ⟨k2, hk2, hkind⟩
    · exact absurd he (by simp)
    · rcases hkind with he | ⟨b2, hbr, he⟩
      · exact absurd he (by simp)
      · injection he with he
        subst he
        omega

theorem asRandomData_v2 {cfg : Config} {g : GenericResult} (h : cfg.v2from ≤ g.Rnd) :
    asRandomData cfg (.generic g) =
      { Rnd := g.Rnd, Random := g.Random, Sig := [], PreviousSignature := g.PrevSig,
        SigV2 := g.Sig, version := 2 } := by
  simp [asRandomData, h]

theorem asRandomData_v1 {cfg : Config} {g : GenericResult} (h : ¬ cfg.v2from ≤ g.Rnd) :
    asRandomData cfg (.generic g) =
      { Rnd := g.Rnd, Random := g.Random, Sig := g.Sig, PreviousSignature := g.PrevSig,
        SigV2 := [], version := 0 } := by
  simp [asRandomData, h]

theorem verify_fast_eq {env : Env} {cfg : Config} {s : VState} {info : ChainInfo}
    {r : RandomData}
    (hcond : ¬ (r.Rnd < cfg.v2from ∧ (cfg.strict = true ∨ r.PreviousSignature = none))) :
    verify env cfg s info r =
      ((verifyTail env cfg info r r.PreviousSignature).1, s,
        (verifyTail env cfg info r r.PreviousSignature).2) := by
  unfold verify
  rw [if_neg hcond]

theorem verify_no_v2_below {env : Env} {cfg : Config} {s : VState} {info : ChainInfo}
    {r : RandomData} (h : ¬ cfg.v2from ≤ r.Rnd) :
    ∀ b, Ev.verifyV2Call b ∉ (verify env cfg s info r).2.2 := by
  intro b hb
  by_cases hcond : r.Rnd < cfg.v2from ∧ (cfg.strict = true ∨ r.PreviousSignature = none)
  · unfold verify at hb
    rw [if_pos hcond] at hb
    rcases hw : getTrustedPreviousSignature env s r.Rnd with ⟨wres, sW, tW⟩
    rw [hw] at hb
    cases wres with
    | error e =>
      dsimp only at hb
      simp only [List.mem_cons] at hb
      rcases hb with hb | hb
      · exact absurd hb (by simp)
      · have htW : tW = (getTrustedPreviousSignature env s r.Rnd).2.2 := by rw [hw]
        rw [htW] at hb
        rcases getTPS_trace_mem env s r.Rnd _ hb with he | ⟨k, -, he | ⟨b2, -, he⟩⟩
        · exact absurd he (by simp)
        · exact absurd he (by simp)
        · exact absurd he (by simp)
    | ok ps =>
      dsimp only at hb
      rcases hvt : verifyTail env cfg info r (some ps) with ⟨vres, vtt⟩
      rw [hvt] at hb
      dsimp only at hb
      simp only [List.cons_append, List.mem_cons, List.mem_append] at hb
      rcases hb with hb | hb | hb
      · exact absurd hb (by simp)
      · have htW : tW = (getTrustedPreviousSignature env s r.Rnd).2.2 := by rw [hw]
        rw [htW] at hb
        rcases getTPS_trace_mem env s r.Rnd _ hb with he | ⟨k, -, he | ⟨b2, -, he⟩⟩
        · exact absurd he (by simp)
        · exact absurd he (by simp)
        · exact absurd he (by simp)
      · have hvtt : vtt = (verifyTail env cfg info r (some ps)).2 :=
          (congrArg Prod.snd hvt).symm
        rw [hvtt, verifyTail_trace_v1 h] at hb
        simp at hb
  · rw [verify_fast_eq hcond] at hb
    dsimp only at hb
    rw [verifyTail_trace_v1 h] at hb
    simp at hb

theorem verify_ok_trace_last {env : Env} {cfg : Config} {s : VState} {info : ChainInfo}
    {r : RandomData} {rd2 : RandomData} {s2 : VState} {t2 : Trace}
    (h : ¬ cfg.v2from ≤ r.Rnd)
    (hok : verify env cfg s info r = (.ok rd2, s2, t2)) :
    ∃ tpre ps, t2 = tpre ++
      [.verifyV1Call { PreviousSig := ps, Round := r.Rnd, Signature := r.Signature }] := by
  unfold verify at hok
  by_cases hcond : r.Rnd < cfg.v2from ∧ (cfg.strict = true ∨ r.PreviousSignature = none)
  · rw [if_pos hcond] at hok
    rcases hw : getTrustedPreviousSignature env s r.Rnd with ⟨wres, sW, tW⟩
    rw [hw] at hok
    cases wres with
    | error e => exact absurd (congrArg Prod.fst hok) (by simp)
    | ok ps =>
      dsimp only at hok
      rcases hvt : verifyTail env cfg info r (some ps) with ⟨vres, vtt⟩
      rw [hvt] at hok
      dsimp only at hok
      obtain ⟨-, -, ht⟩ := triple_eq hok
      have hvtt : vtt = (verifyTail env cfg info r (some ps)).2 :=
        (congrArg Prod.snd hvt).symm
      rw [hvtt, verifyTail_trace_v1 h] at ht
      refine ⟨.walkCall r.Rnd :: tW, ps, ?_⟩
      rw [← ht]
      rfl
  · rw [if_neg hcond] at hok
    rcases hvt : verifyTail env cfg info r r.PreviousSignature with ⟨vres, vtt⟩
    rw [hvt] at hok
    dsimp only at hok
    obtain ⟨-, -, ht⟩ := triple_eq hok
    have hvtt : vtt = (verifyTail env cfg info r r.PreviousSignature).2 :=
      (congrArg Prod.snd hvt).symm
    rw [hvtt, verifyTail_trace_v1 h] at ht
    refine ⟨[], r.PreviousSignature.getD [], ?_⟩
    rw [← ht]
    rfl

theorem verify_ok_shape {env : Env} {cfg : Config} {s : VState} {info : ChainInfo}
    {r : RandomData} {rd2 : RandomData} {s2 : VState} {t2 : Trace}
    (hok : verify env cfg s info r = (.ok rd2, s2, t2)) :
    rd2 = { r with
      Random := env.randomnessFrom (if cfg.v2from ≤ r.Rnd then r.SigV2 else r.Sig) } := by
  unfold verify at hok
  by_cases hcond : r.Rnd < cfg.v2from ∧ (cfg.strict = true ∨ r.PreviousSignature = none)
  · rw [if_pos hcond] at hok
    rcases hw : getTrustedPreviousSignature env s r.Rnd with ⟨wres, sW, tW⟩
    rw [hw] at hok
    cases wres with
    | error e => exact absurd (congrArg Prod.fst hok) (by simp)
    | ok ps =>
      dsimp only at hok
      rcases hvt : verifyTail env cfg info r (some ps) with ⟨vres, vtt⟩
      rw [hvt] at hok
      dsimp only at hok
      obtain ⟨hres, -, -⟩ := triple_eq hok
      rw [hres] at hvt
      exact verifyTail_ok_shape hvt
  · rw [if_neg hcond] at hok
    rcases hvt : verifyTail env cfg info r r.PreviousSignature with ⟨vres, vtt⟩
    rw [hvt] at hok
    dsimp only at hok
    obtain ⟨hres, -, -⟩ := triple_eq hok
    rw [hres] at hvt
    exact verifyTail_ok_shape hvt

theorem verify_ok_random {env : Env} {cfg : Config} {s : VState} {info : ChainInfo}
    {r : RandomData} {rd2 : RandomData} {s2 : VState} {t2 : Trace}
    (hok : verify env cfg s info r = (.ok rd2, s2, t2)) :
    rd2.Random = env.randomnessFrom
      (if cfg.v2from ≤ rd2.Rnd then rd2.SigV2 else rd2.Sig) := by
  have hsh := verify_ok_shape hok
  subst hsh
  rfl

/-- C5: for every round and configuration, the verifier invokes the
trust-chain walk if and only if the round is below the v2 threshold and
(strict mode is enabled or no previous-signature hint is present); in all
other cases the supplied hint (possibly absent) is passed directly to the
scheme dispatch as the previous signature, without walking. -/
theorem C5_walk_iff (env : Env) (cfg : Config) (s : VState) (info : ChainInfo)
    (r : RandomData) :
    (Ev.walkCall r.Rnd ∈ (verify env cfg s info r).2.2 ↔
      (r.Rnd < cfg.v2from ∧ (cfg.strict = true ∨ r.PreviousSignature = none))) ∧
    (¬ (r.Rnd < cfg.v2from ∧ (cfg.strict = true ∨ r.PreviousSignature = none)) →
      verify env cfg s info r =
        ((verifyTail env cfg info r r.PreviousSignature).1, s,
          (verifyTail env cfg info r r.PreviousSignature).2)) := by
  by_cases hcond : r.Rnd < cfg.v2from ∧ (cfg.strict = true ∨ r.PreviousSignature = none)
  · refine ⟨⟨fun _ => hcond, fun _ => ?_⟩, fun hc => absurd hcond hc⟩
    unfold verify
    rw [if_pos hcond]
    rcases hw : getTrustedPreviousSignature env s r.Rnd with ⟨wres, sW, tW⟩
    cases wres with
    | error e => simp
    | ok ps =>
      dsimp only
      rcases hvt : verifyTail env cfg info r (some ps) with ⟨vres, vtt⟩
      simp
  · refine ⟨⟨fun hmem => ?_, fun hc => absurd hc hcond⟩, fun _ => verify_fast_eq hcond⟩
    exfalso
    rw [verify_fast_eq hcond] at hmem
    dsimp only at hmem
    by_cases hv2 : cfg.v2from ≤ r.Rnd
    · rw [verifyTail_trace_v2 hv2] at hmem
      simp at hmem
    · rw [verifyTail_trace_v1 hv2] at hmem
      simp at hmem

/-- Witness for C5: a strict sub-threshold round does invoke the walk, and
a hinted sub-threshold round in non-strict mode resolves to the hint
without walking. -/
theorem C5_witness :
    Ev.walkCall 2 ∈ (verify envA cfgA s0 infoA
      { Rnd := 2, Random := [9], Sig := [1, 2] }).2.2 ∧
    verify envA cfgB s0 infoA
        { Rnd := 2, Random := [9], Sig := [1, 2], PreviousSignature := some [5] } =
      ((verifyTail envA cfgB infoA
          { Rnd := 2, Random := [9], Sig := [1, 2], PreviousSignature := some [5] }
          (some [5])).1, s0,
        (verifyTail envA cfgB infoA
          { Rnd := 2, Random := [9], Sig := [1, 2], PreviousSignature := some [5] }
          (some [5])).2) :=
  ⟨(C5_walk_iff envA cfgA s0 infoA { Rnd := 2, Random := [9], Sig := [1, 2] }).1.mpr
      (by decide),
    (C5_walk_iff envA cfgB s0 infoA
      { Rnd := 2, Random := [9], Sig := [1, 2], PreviousSignature := some [5] }).2
      (by decide)⟩

/-- C9: at or after the v2 threshold the adapter stores the raw signature
into the v2 slot with scheme tag 2 and verification performs exactly one
primitive invocation — the v2 primitive on a beacon built from the v2
slot; below the threshold the adapter stores the raw signature into the
v1 slot with scheme tag 0, the v2 primitive is never invoked, and a
successful verification ends with a v1 invocation on a beacon built from
the v1 slot. -/
theorem C9_scheme_dispatch (env : Env) (cfg : Config) (s : VState) (info : ChainInfo)
    (g : GenericResult) :
    (cfg.v2from ≤ g.Rnd →
      asRandomData cfg (.generic g) =
        { Rnd := g.Rnd, Random := g.Random, Sig := [], PreviousSignature := g.PrevSig,
          SigV2 := g.Sig, version := 2 } ∧
      (verify env cfg s info (asRandomData cfg (.generic g))).2.2 =
        [.verifyV2Call
          { PreviousSig := g.PrevSig.getD [], Round := g.Rnd, SignatureV2 := g.Sig }]) ∧
    (g.Rnd < cfg.v2from →
      asRandomData cfg (.generic g) =
        { Rnd := g.Rnd, Random := g.Random, Sig := g.Sig, PreviousSignature := g.PrevSig,
          SigV2 := [], version := 0 } ∧
      (∀ b, Ev.verifyV2Call b ∉ (verify env cfg s info (asRandomData cfg (.generic g))).2.2) ∧
      (∀ rd2 s2 t2,
        verify env cfg s info (asRandomData cfg (.generic g)) = (.ok rd2, s2, t2) →
        ∃ tpre ps, t2 = tpre ++
          [.verifyV1Call { PreviousSig := ps, Round := g.Rnd, Signature := g.Sig }])) := by
  constructor
  · intro hv2
    have hadapt := asRandomData_v2 hv2
    refine ⟨hadapt, ?_⟩
    rw [hadapt]
    rw [verify_fast_eq (fun hc => absurd hc.1 (Nat.not_lt.mpr hv2))]
    dsimp only
    rw [verifyTail_trace_v2 hv2]
  · intro hv1
    have hadapt := asRandomData_v1 (Nat.not_le.mpr hv1)
    refine ⟨hadapt, ?_, ?_⟩
    · intro b
      rw [hadapt]
      exact verify_no_v2_below (Nat.not_le.mpr hv1) b
    · intro rd2 s2 t2 hok
      rw [hadapt] at hok
      obtain ⟨tpre, ps, ht⟩ := verify_ok_trace_last (Nat.not_le.mpr hv1) hok
      refine ⟨tpre, ps, ?_⟩
      rw [ht]
      rfl

/-- Witness for C9: a concrete above-threshold round uses the v2 slot and
primitive; a concrete below-threshold round never touches v2 and its
successful verification ends with a v1 beacon over the v1 slot. -/
theorem C9_witness :
    (asRandomData cfgA (.generic { Rnd := 150, Random := [9], Sig := [1] }) =
      { Rnd := 150, Random := [9], Sig := [], PreviousSignature := none,
        SigV2 := [1], version := 2 } ∧
    (verify envA cfgA s0 infoA
        (asRandomData cfgA (.generic { Rnd := 150, Random := [9], Sig := [1] }))).2.2 =
      [.verifyV2Call { PreviousSig := [], Round := 150, SignatureV2 := [1] }]) ∧
    (asRandomData cfgA (.generic { Rnd := 1, Random := [9], Sig := [1, 1] }) =
      { Rnd := 1, Random := [9], Sig := [1, 1], PreviousSignature := none,
        SigV2 := [], version := 0 } ∧
    (∀ b, Ev.verifyV2Call b ∉ (verify envA cfgA s0 infoA
      (asRandomData cfgA (.generic { Rnd := 1, Random := [9], Sig := [1, 1] }))).2.2) ∧
    (∀ rd2 s2 t2,
      verify envA cfgA s0 infoA
          (asRandomData cfgA (.generic { Rnd := 1, Random := [9], Sig := [1, 1] })) =
        (.ok rd2, s2, t2) →
      ∃ tpre ps, t2 = tpre ++
        [.verifyV1Call { PreviousSig := ps, Round := 1, Signature := [1, 1] }])) :=
  ⟨(C9_scheme_dispatch envA cfgA s0 infoA { Rnd := 150, Random := [9], Sig := [1] }).1
      (by decide),
    (C9_scheme_dispatch envA cfgA s0 infoA { Rnd := 1, Random := [9], Sig := [1, 1] }).2
      (by decide)⟩

/-- Counterexample for C1 as stated: round 2 is verified through a
successful chain walk (strict Get of round 2 performs a walk and
succeeds), yet the subsequent walk targeting round 3 re-fetches round 2
and re-verifies it with the v1 primitive — a round that is not strictly
greater than 2. -/
theorem C1_counterexample :
    Ev.walkCall 2 ∈ (Get envA cfgA s0 2).2.2 ∧
    (Get envA cfgA s0 2).1 =
      .ok { Rnd := 2, Random := [0, 1, 2], Sig := [1, 2] } ∧
    Ev.fetchRound 2 ∈ (getTrustedPreviousSignature envA (Get envA cfgA s0 2).2.1 3).2.2 ∧
    Ev.verifyV1Call { PreviousSig := [100], Round := 2, Signature := [1, 2] } ∈
      (getTrustedPreviousSignature envA (Get envA cfgA s0 2).2.1 3).2.2 := by
  refine ⟨?_, rfl, ?_, ?_⟩ <;> decide

theorem Watch_outputs {env : Env} {cfg : Config} {s : VState} {input : List Result}
    {info : ChainInfo} (hinfo : env.infoRes = .ok info) :
    (Watch env cfg s input).1 = (watchLoop env cfg info s input).1 := by
  unfold Watch
  rw [hinfo]

theorem watchLoop_mem_rd (env : Env) (cfg : Config) (info : ChainInfo) :
    ∀ input s rd, Result.rd rd ∈ (watchLoop env cfg info s input).1 →
      rd.Random = env.randomnessFrom
        (if cfg.v2from ≤ rd.Rnd then rd.SigV2 else rd.Sig) := by
  intro input
  induction input with
  | nil => intro s rd h; simp [watchLoop] at h
  | cons r rs ih =>
    intro s rd h
    unfold watchLoop at h
    rcases hv : verify env cfg s info (asRandomData cfg r) with ⟨vres, s', t⟩
    rw [hv] at h
    cases vres with
    | ok rd0 =>
      dsimp only at h
      rcases hwl : watchLoop env cfg info s' rs with ⟨os, s2, t2⟩
      rw [hwl] at h
      dsimp only at h
      simp only [List.mem_cons] at h
      rcases h with h | h
      · cases r with
        | rd x =>
          simp only [forwardItem] at h
          injection h with h
          subst h
          exact verify_ok_random hv
        | generic g =>
          simp only [forwardItem] at h
          exact absurd h (by simp)
      · exact ih s' rd (by rw [hwl]; exact h)
    | error e =>
      dsimp only at h
      rcases hwl : watchLoop env cfg info s' rs with ⟨os, s2, t2⟩
      rw [hwl] at h
      dsimp only at h
      exact ih s' rd (by rw [hwl]; exact h)

theorem watchLoop_mem_generic (env : Env) (cfg : Config) (info : ChainInfo) :
    ∀ input s g, Result.generic g ∈ (watchLoop env cfg info s input).1 →
      Result.generic g ∈ input := by
  intro input
  induction input with
  | nil => intro s g h; simp [watchLoop] at h
  | cons r rs ih =>
    intro s g h
    unfold watchLoop at h
    rcases hv : verify env cfg s info (asRandomData cfg r) with ⟨vres, s', t⟩
    rw [hv] at h
    cases vres with
    | ok rd0 =>
      dsimp only at h
      rcases hwl : watchLoop env cfg info s' rs with ⟨os, s2, t2⟩
      rw [hwl] at h
      dsimp only at h
      simp only [List.mem_cons] at h
      rcases h with h | h
      · cases r with
        | rd x =>
          simp only [forwardItem] at h
          exact absurd h (by simp)
        | generic g0 =>
          simp only [forwardItem] at h
          injection h with h
          subst h
          exact List.mem_cons_self _ _
      · exact List.mem_cons_of_mem _ (ih s' g (by rw [hwl]; exact h))
    | error e =>
      dsimp only at h
      rcases hwl : watchLoop env cfg info s' rs with ⟨os, s2, t2⟩
      rw [hwl] at h
      dsimp only at h
      exact List.mem_cons_of_mem _ (ih s' g (by rw [hwl]; exact h))

/-- C2 (corrected): the result of a successful Get carries randomness
derived deterministically from its verified signature slot, and so does
every canonical (RandomData) item forwarded by Watch; but a non-canonical
item that passes verification is forwarded to the Watch output unchanged,
still carrying whatever randomness bytes the raw input supplied. -/
theorem C2_amended_randomness (env : Env) (cfg : Config) :
    (∀ s round rd s1 t1, Get env cfg s round = (.ok rd, s1, t1) →
      rd.Random = env.randomnessFrom
        (if cfg.v2from ≤ rd.Rnd then rd.SigV2 else rd.Sig)) ∧
    (∀ s input rd, Result.rd rd ∈ (Watch env cfg s input).1 →
      rd.Random = env.randomnessFrom
        (if cfg.v2from ≤ rd.Rnd then rd.SigV2 else rd.Sig)) ∧
    (∀ s input g, Result.generic g ∈ (Watch env cfg s input).1 →
      Result.generic g ∈ input) := by
  refine ⟨?_, ?_, ?_⟩
  · intro s round rd s1 t1 h
    unfold Get at h
    cases hinfo : env.infoRes with
    | error u => rw [hinfo] at h; simp at h
    | ok info =>
    rw [hinfo] at h
    dsimp only at h
    cases hget : env.getRes round with
    | error u => rw [hget] at h; simp at h
    | ok r =>
    rw [hget] at h
    dsimp only at h
    rcases hv : verify env cfg s info (asRandomData cfg r) with ⟨vres, sv, tv⟩
    rw [hv] at h
    cases vres with
    | error e => simp at h
    | ok rd0 =>
      dsimp only at h
      obtain ⟨h1, -, -⟩ := triple_eq h
      have h2 : rd0 = rd := by simpa using h1
      subst h2
      exact verify_ok_random hv
  · intro s input rd h
    cases hinfo : env.infoRes with
    | error u => unfold Watch at h; rw [hinfo] at h; simp at h
    | ok info =>
      rw [Watch_outputs hinfo] at h
      exact watchLoop_mem_rd env cfg info input s rd h
  · intro s input g h
    cases hinfo : env.infoRes with
    | error u => unfold Watch at h; rw [hinfo] at h; simp at h
    | ok info =>
      rw [Watch_outputs hinfo] at h
      exact watchLoop_mem_generic env cfg info input s g h

/-- Counterexample for C2 as stated: a non-canonical item with arbitrary
randomness bytes [9] passes verification and is forwarded by Watch
unchanged, although the randomness derived from its verified signature is
[0, 1]. -/
theorem C2_counterexample :
    (Watch envA cfgB s0
        [.generic { Rnd := 5, Random := [9], Sig := [1], PrevSig := some [2] }]).1 =
      [.generic { Rnd := 5, Random := [9], Sig := [1], PrevSig := some [2] }] ∧
    Result.Randomness
      (.generic { Rnd := 5, Random := [9], Sig := [1], PrevSig := some [2] }) = [9] ∧
    envA.randomnessFrom [1] = [0, 1] ∧
    ([9] : Bytes) ≠ [0, 1] := by
  refine ⟨by decide, rfl, rfl, by decide⟩

/-- Witness for C2 (amended): a concrete successful Get returns randomness
equal to the value derived from its v1 signature slot. -/
theorem C2_witness :
    ({ Rnd := 1, Random := [0, 1, 1], Sig := [1, 1] } : RandomData).Random =
      envA.randomnessFrom
        (if cfgB.v2from ≤ ({ Rnd := 1, Random := [0, 1, 1], Sig := [1, 1] } : RandomData).Rnd
          then ({ Rnd := 1, Random := [0, 1, 1], Sig := [1, 1] } : RandomData).SigV2
          else ({ Rnd := 1, Random := [0, 1, 1], Sig := [1, 1] } : RandomData).Sig) :=
  (C2_amended_randomness envA cfgB).1 s0 1
    { Rnd := 1, Random := [0, 1, 1], Sig := [1, 1] } s0
    [.fetchInfo, .fetchRound 1, .walkCall 1, .fetchInfo,
      .verifyV1Call { PreviousSig := [100], Round := 1, Signature := [1, 1] }]
    rfl

theorem walkLoop_trusted (env : Env) (info : ChainInfo) :
    ∀ fuel tr ps nx tr' ps' nx' t,
      walkLoop env info.PublicKey fuel tr ps nx = (.ok (tr', ps', nx'), t) →
      TrustedSig env info ps → TrustedSig env info ps' := by
  intro fuel
  induction fuel with
  | zero =>
    intro tr ps nx tr' ps' nx' t h hps
    rw [walkLoop, Prod.mk.injEq, Except.ok.injEq, Prod.mk.injEq, Prod.mk.injEq] at h
    obtain ⟨⟨-, h2, -⟩, -⟩ := h
    rw [← h2]
    exact hps
  | succ n ih =>
    intro tr ps nx tr' ps' nx' t h hps
    rw [walkLoop] at h
    split at h
    · simp at h
    · next nx0 heq =>
      split at h
      next res0 trec hrec =>
        dsimp only at h
        split at h
        · next hv =>
          have hfst : res0 = Except.ok (tr', ps', nx') := congrArg Prod.fst h
          have htr : TrustedSig env info nx0.Signature :=
            TrustedSig.step ps nx0.Signature (tr + 1) hps hv
          exact ih (tr + 1) nx0.Signature (some nx0) tr' ps' nx' trec
            (by rw [hrec, hfst]) htr
        · simp at h

theorem walkFinish_state {s : VState} {target tr0 : Nat} {t0 : Trace}
    {res0 : Except Err (Nat × Bytes × Option Result)} {t1 : Trace}
    {res : Except Err Bytes} {s' : VState} {t : Trace}
    (h : walkFinish s target tr0 t0 (res0, t1) = (res, s', t)) :
    s' = s ∨ ∃ tr' ps' m, res0 = .ok (tr', ps', some m) ∧ tr0 < tr' ∧
      s' = { s with pointOfTrust := some m } := by
  cases res0 with
  | error e0 =>
    simp only [walkFinish, Prod.mk.injEq] at h
    exact .inl h.2.1.symm
  | ok trip =>
    obtain ⟨tr', ps', nx⟩ := trip
    simp only [walkFinish] at h
    by_cases hcommit : tr' = target ∧ tr0 < tr'
    · rw [if_pos hcommit] at h
      cases nx with
      | none =>
        split at h <;>
          (obtain ⟨-, h2, -⟩ := triple_eq h; exact .inl h2.symm)
      | some m =>
        split at h <;>
          (obtain ⟨-, h2, -⟩ := triple_eq h;
            exact .inr ⟨tr', ps', m, rfl, hcommit.2, h2.symm⟩)
    · rw [if_neg hcommit] at h
      split at h <;>
        (obtain ⟨-, h2, -⟩ := triple_eq h; exact .inl h2.symm)

theorem getTPS_invariant (env : Env) (s : VState) (round : Nat)
    (hInv : Invariant env s) :
    Invariant env (getTrustedPreviousSignature env s round).2.1 := by
  rcases hres : getTrustedPreviousSignature env s round with ⟨res, s', t⟩
  show Invariant env s'
  unfold getTrustedPreviousSignature at hres
  split at hres
  · obtain ⟨-, h2, -⟩ := triple_eq hres
    rw [← h2]
    exact hInv
  · next info heq =>
    split at hres
    · obtain ⟨-, h2, -⟩ := triple_eq hres
      rw [← h2]
      exact hInv
    · -- the walk proper: handle each anchor
      have main : ∀ tr0 ps0 t0, TrustedSig env info ps0 →
          walkFinish s (wm1 round) tr0 t0
            (walkLoop env info.PublicKey (wm1 round - tr0) tr0 ps0 none) =
            (res, s', t) →
          Invariant env s' := by
        intro tr0 ps0 t0 hps0 h
        rcases hloop : walkLoop env info.PublicKey (wm1 round - tr0) tr0 ps0 none
          with ⟨res0, t1⟩
        rw [hloop] at h
        rcases walkFinish_state h with hs | ⟨tr', ps', m, hres0, hadv, hs⟩
        · rw [hs]
          exact hInv
        · rw [hres0] at hloop
          obtain ⟨htr0, -, hp⟩ :=
            walkLoop_ok env info.PublicKey _ _ _ _ _ _ _ _ hloop
          obtain ⟨m2, hm2, hsig, -⟩ := hp (by omega)
          obtain rfl : m = m2 := by injection hm2
          have htrust : TrustedSig env info ps' :=
            walkLoop_trusted env info _ _ _ _ _ _ _ _ hloop hps0
          rw [hs]
          intro res2 hres2 info2 hinfo2
          have hr2 : res2 = m := by
            simp only at hres2
            injection hres2 with hres2
            exact hres2.symm
          have hi2 : info2 = info := by
            rw [heq] at hinfo2
            injection hinfo2 with hinfo2
            exact hinfo2.symm
          subst hr2
          subst hi2
          rw [← hsig]
          exact htrust
      cases hpot : s.pointOfTrust with
      | none =>
        rw [hpot] at hres
        dsimp only at hres
        exact main 1 info.GroupHash [Ev.fetchInfo] TrustedSig.genesis hres
      | some pot =>
        rw [hpot] at hres
        dsimp only at hres
        by_cases hstale : round < pot.Round
        · rw [if_pos hstale] at hres
          dsimp only at hres
          exact main 1 info.GroupHash [Ev.fetchInfo] TrustedSig.genesis hres
        · rw [if_neg hstale] at hres
          dsimp only at hres
          exact main pot.Round pot.Signature [] (hInv pot hpot info heq) hres

theorem verify_invariant (env : Env) (cfg : Config) (s : VState) (info : ChainInfo)
    (r : RandomData) (hInv : Invariant env s) :
    Invariant env (verify env cfg s info r).2.1 := by
  rcases hres : verify env cfg s info r with ⟨res, s', t⟩
  show Invariant env s'
  unfold verify at hres
  split at hres
  · rcases hw : getTrustedPreviousSignature env s r.Rnd with ⟨wres, sW, tW⟩
    rw [hw] at hres
    have hWInv : Invariant env sW := by
      have h2 := getTPS_invariant env s r.Rnd hInv
      rw [hw] at h2
      exact h2
    cases wres with
    | error e =>
      obtain ⟨-, h2, -⟩ := triple_eq hres
      rw [← h2]
      exact hWInv
    | ok ps =>
      dsimp only at hres
      rcases hvt : verifyTail env cfg info r (some ps) with ⟨vres, vtt⟩
      rw [hvt] at hres
      obtain ⟨-, h2, -⟩ := triple_eq hres
      rw [← h2]
      exact hWInv
  · rcases hvt : verifyTail env cfg info r r.PreviousSignature with ⟨vres, vtt⟩
    rw [hvt] at hres
    obtain ⟨-, h2, -⟩ := triple_eq hres
    rw [← h2]
    exact hInv

theorem Get_invariant (env : Env) (cfg : Config) (s : VState) (round : Nat)
    (hInv : Invariant env s) :
    Invariant env (Get env cfg s round).2.1 := by
  rcases hres : Get env cfg s round with ⟨res, s', t⟩
  show Invariant env s'
  unfold Get at hres
  split at hres
  · obtain ⟨-, h2, -⟩ := triple_eq hres
    rw [← h2]
    exact hInv
  · next info heq =>
    split at hres
    · obtain ⟨-, h2, -⟩ := triple_eq hres
      rw [← h2]
      exact hInv
    · next r heq2 =>
      rcases hv : verify env cfg s info (asRandomData cfg r) with ⟨vres, sv, tv⟩
      rw [hv] at hres
      have hsv : Invariant env sv := by
        have h2 := verify_invariant env cfg s info (asRandomData cfg r) hInv
        rw [hv] at h2
        exact h2
      cases vres with
      | error e =>
        obtain ⟨-, h2, -⟩ := triple_eq hres
        rw [← h2]
        exact hsv
      | ok rd0 =>
        dsimp only at hres
        obtain ⟨-, h2, -⟩ := triple_eq hres
        rw [← h2]
        exact hsv

theorem watchLoop_invariant (env : Env) (cfg : Config) (info : ChainInfo) :
    ∀ input s, Invariant env s →
      Invariant env (watchLoop env cfg info s input).2.1 := by
  intro input
  induction input with
  | nil => intro s hInv; exact hInv
  | cons r rs ih =>
    intro s hInv
    rcases hres : watchLoop env cfg info s (r :: rs) with ⟨os, s2, t2⟩
    show Invariant env s2
    unfold watchLoop at hres
    rcases hv : verify env cfg s info (asRandomData cfg r) with ⟨vres, s', t⟩
    rw [hv] at hres
    have hs' : Invariant env s' := by
      have h2 := verify_invariant env cfg s info (asRandomData cfg r) hInv
      rw [hv] at h2
      exact h2
    cases vres with
    | ok rd0 =>
      dsimp only at hres
      rcases hwl : watchLoop env cfg info s' rs with ⟨os3, s3, t3⟩
      rw [hwl] at hres
      obtain ⟨-, h2, -⟩ := triple_eq hres
      rw [← h2]
      have h3 := ih s' hs'
      rw [hwl] at h3
      exact h3
    | error e =>
      dsimp only at hres
      rcases hwl : watchLoop env cfg info s' rs with ⟨os3, s3, t3⟩
      rw [hwl] at hres
      obtain ⟨-, h2, -⟩ := triple_eq hres
      rw [← h2]
      have h3 := ih s' hs'
      rw [hwl] at h3
      exact h3

theorem Watch_invariant (env : Env) (cfg : Config) (s : VState) (input : List Result)
    (hInv : Invariant env s) :
    Invariant env (Watch env cfg s input).2.1 := by
  rcases hres : Watch env cfg s input with ⟨os, s2, t2⟩
  show Invariant env s2
  unfold Watch at hres
  split at hres
  · obtain ⟨-, h2, -⟩ := triple_eq hres
    rw [← h2]
    exact hInv
  · next info heq =>
    rcases hwl : watchLoop env cfg info s input with ⟨os3, s3, t3⟩
    rw [hwl] at hres
    obtain ⟨-, h2, -⟩ := triple_eq hres
    rw [← h2]
    have h3 := watchLoop_invariant env cfg info input s hInv
    rw [hwl] at h3
    exact h3

/-- C4 (corrected): for a client whose cache starts empty (construction
with no previousResult), the point-of-trust invariant — a non-empty cache
holds a result whose signature is v1-verified through a chain of beacon
links back to the genesis identifier — holds at construction and is
preserved by the trust-chain walk, by Get and by Watch.  (Construction
with an arbitrary non-empty previousResult violates the invariant, see
the counterexample.) -/
theorem C4_amended_invariant (env : Env) (cfg : Config) :
    Invariant env (newVerifyingClient none cfg.strict cfg.v2from).2 ∧
    (∀ s round, Invariant env s →
      Invariant env (getTrustedPreviousSignature env s round).2.1) ∧
    (∀ s round, Invariant env s → Invariant env (Get env cfg s round).2.1) ∧
    (∀ s input, Invariant env s → Invariant env (Watch env cfg s input).2.1) := by
  refine ⟨?_, getTPS_invariant env, Get_invariant env cfg, Watch_invariant env cfg⟩
  intro res hres
  exact absurd hres (by simp [newVerifyingClient])

/-- Witness for C4 (amended): starting from the empty cache, the state
left by a strict Get of round 3 satisfies the invariant. -/
theorem C4_witness : Invariant envA (Get envA cfgA s0 3).2.1 :=
  (C4_amended_invariant envA cfgA).2.2.1 s0 3 ((C4_amended_invariant envA cfgA).1)

theorem trustedSig_envZero (b : Bytes) (h : TrustedSig envZero infoA b) : b = [100] := by
  induction h with
  | genesis => rfl
  | step prev sig r hprev hv ih => exact Bool.noConfusion hv

/-- Counterexample for C4 as stated: client construction accepts an
arbitrary previousResult as the initial cache; seeding it with an
unverified result under an always-rejecting v1 primitive yields a
reachable state whose non-empty cache is not verified back to genesis. -/
theorem C4_counterexample :
    ¬ Invariant envZero (newVerifyingClient (some bogusRes) true 100).2 := by
  intro h
  have ht := h bogusRes rfl infoA rfl
  have h2 := trustedSig_envZero _ ht
  simp [bogusRes, Result.Signature] at h2

theorem forwardItem_Round {env : Env} {cfg : Config} {s : VState} {info : ChainInfo}
    {r : Result} {rd : RandomData} {s' : VState} {t : Trace}
    (h : verify env cfg s info (asRandomData cfg r) = (.ok rd, s', t)) :
    Result.Round (forwardItem r rd) = Result.Round r := by
  cases r with
  | generic g => rfl
  | rd x =>
    have h2 := verify_ok_shape h
    subst h2
    rfl

theorem watchLoop_cons_err {env : Env} {cfg : Config} {info : ChainInfo}
    {s : VState} {r : Result} {rs : List Result} {e : Err} {s' : VState} {t : Trace}
    (h : verify env cfg s info (asRandomData cfg r) = (.error e, s', t)) :
    (watchLoop env cfg info s (r :: rs)).1 = (watchLoop env cfg info s' rs).1 := by
  rcases hres : watchLoop env cfg info s (r :: rs) with ⟨os, s2, t2⟩
  unfold watchLoop at hres
  rw [h] at hres
  dsimp only at hres
  rcases hwl : watchLoop env cfg info s' rs with ⟨os3, s3, t3⟩
  rw [hwl] at hres
  obtain ⟨h1, -, -⟩ := triple_eq hres
  rw [h1]

theorem watchLoop_cons_ok {env : Env} {cfg : Config} {info : ChainInfo}
    {s : VState} {r : Result} {rs : List Result} {rd : RandomData}
    {s' : VState} {t : Trace}
    (h : verify env cfg s info (asRandomData cfg r) = (.ok rd, s', t)) :
    (watchLoop env cfg info s (r :: rs)).1 =
      forwardItem r rd :: (watchLoop env cfg info s' rs).1 := by
  rcases hres : watchLoop env cfg info s (r :: rs) with ⟨os, s2, t2⟩
  unfold watchLoop at hres
  rw [h] at hres
  dsimp only at hres
  rcases hwl : watchLoop env cfg info s' rs with ⟨os3, s3, t3⟩
  rw [hwl] at hres
  obtain ⟨h1, -, -⟩ := triple_eq hres
  rw [h1]

theorem watchLoop_sublist (env : Env) (cfg : Config) (info : ChainInfo) :
    ∀ input s, List.Sublist (((watchLoop env cfg info s input).1).map Result.Round)
      (input.map Result.Round) := by
  intro input
  induction input with
  | nil => intro s; simp [watchLoop]
  | cons r rs ih =>
    intro s
    rcases hv : verify env cfg s info (asRandomData cfg r) with ⟨vres, s', t⟩
    cases vres with
    | ok rd0 =>
      rw [watchLoop_cons_ok hv]
      simp only [List.map_cons]
      rw [forwardItem_Round hv]
      exact List.Sublist.cons₂ _ (ih s')
    | error e =>
      rw [watchLoop_cons_err hv]
      simp only [List.map_cons]
      exact List.Sublist.cons _ (ih s')

/-- C8: with chain metadata available, the Watch output stream is the
stateful filtering of the input stream through verification: the output
rounds form an order-preserving subsequence of the input rounds, an item
failing verification is dropped while the stream continues with the rest
of the input, an item passing verification is forwarded followed by the
rest of the stream, and the output closes exactly when the input closes. -/
theorem C8_stream_filter (env : Env) (cfg : Config) (info : ChainInfo)
    (hinfo : env.infoRes = .ok info) :
    (∀ s input, List.Sublist (((Watch env cfg s input).1).map Result.Round)
        (input.map Result.Round)) ∧
    (∀ s r rs e s' t, verify env cfg s info (asRandomData cfg r) = (.error e, s', t) →
      (Watch env cfg s (r :: rs)).1 = (Watch env cfg s' rs).1) ∧
    (∀ s r rs rd s' t, verify env cfg s info (asRandomData cfg r) = (.ok rd, s', t) →
      (Watch env cfg s (r :: rs)).1 = forwardItem r rd :: (Watch env cfg s' rs).1) ∧
    (∀ s, (Watch env cfg s []).1 = []) := by
  refine ⟨?_, ?_, ?_, ?_⟩
  · intro s input
    rw [Watch_outputs hinfo]
    exact watchLoop_sublist env cfg info input s
  · intro s r rs e s' t h
    rw [Watch_outputs hinfo, Watch_outputs hinfo]
    exact watchLoop_cons_err h
  · intro s r rs rd s' t h
    rw [Watch_outputs hinfo, Watch_outputs hinfo]
    exact watchLoop_cons_ok h
  · intro s
    rw [Watch_outputs hinfo]
    rfl

/-- Witness for C8 on the spec's example stream (round 2 tampered): the
output rounds form a subsequence of the input rounds; concretely the
output is rounds 1 and 3. -/
theorem C8_witness :
    List.Sublist (((Watch envTamper cfgB s0 streamEx).1).map Result.Round)
      (streamEx.map Result.Round) ∧
    ((Watch envTamper cfgB s0 streamEx).1).map Result.Round = [1, 3] :=
  ⟨(C8_stream_filter envTamper cfgB infoA rfl).1 s0 streamEx, by decide⟩

theorem envA_honest : EnvHonest envA := by
  intro k r h
  injection h with h
  rw [← h]
  rfl

/-- Witness for C1 (amended): after the successful walk targeting round 5
(which caches the round 4 result), every fetch and v1 verification of the
walk targeting round 6 is for a round at or above 5. -/
theorem C1_witness :
    (∀ k, Ev.fetchRound k ∈ (getTrustedPreviousSignature envA
        { pointOfTrust := some (.generic { Rnd := 4, Random := [9, 4], Sig := [1, 4] }) }
        (5 + 1)).2.2 → 5 ≤ k) ∧
    (∀ b, Ev.verifyV1Call b ∈ (getTrustedPreviousSignature envA
        { pointOfTrust := some (.generic { Rnd := 4, Random := [9, 4], Sig := [1, 4] }) }
        (5 + 1)).2.2 → 5 ≤ b.Round) :=
  C1_amended_walk_progress envA s0 5 [1, 4]
    { pointOfTrust := some (.generic { Rnd := 4, Random := [9, 4], Sig := [1, 4] }) }
    [.fetchInfo, .fetchInfo,
      .fetchRound 2, .verifyV1Call { PreviousSig := [100], Round := 2, Signature := [1, 2] },
      .fetchRound 3, .verifyV1Call { PreviousSig := [1, 2], Round := 3, Signature := [1, 3] },
      .fetchRound 4, .verifyV1Call { PreviousSig := [1, 3], Round := 4, Signature := [1, 4] }]
    envA_honest (by norm_num) (by norm_num) rfl

/-- Witness for C3 (amended): re-running the strict Get of round 2 returns
the identical result, fetches no round other than 2 and verifies only
round 2. -/
theorem C3_witness :
    ∃ t2, Get envA cfgA s0 2 =
        (.ok { Rnd := 2, Random := [0, 1, 2], Sig := [1, 2] }, s0, t2) ∧
      (∀ k, Ev.fetchRound k ∈ t2 → k = 2) ∧
      (∀ b, Ev.verifyV1Call b ∈ t2 → b.Round = 2) ∧
      (∀ b, Ev.verifyV2Call b ∈ t2 → b.Round = 2) :=
  C3_amended_warm_second_get envA cfgA s0 2
    { Rnd := 2, Random := [0, 1, 2], Sig := [1, 2] } s0
    [.fetchInfo, .fetchRound 2, .walkCall 2, .fetchInfo, .fetchInfo,
      .verifyV1Call { PreviousSig := [100], Round := 2, Signature := [1, 2] }]
    envA_honest (by norm_num) (by norm_num) rfl

end Drand
